import Mathlib

/-!
Verification of the `blocktime` monitoring scripts (`btlive.py` and
`diagnose_proposer.py`).

The Python sources are shallowly embedded: pure helpers become Lean
functions, the mutable globals of the polling loop become an explicit
state record threaded through a `tick` function, machine floats are
modelled as exact rationals, and the external `shidod` queries become
oracle parameters (`Nat → Option _`) so that both the success and the
caught-exception paths of the source are represented.
-/

/-! ### Address codec (`diagnose_proposer.py`, bech32 section) -/

/-- The constant `CHARSET` from the source: the 32-character bech32 alphabet. -/
def CHARSET : String := "qpzry9x8gf2tvdw0s3jn54khce6mua7l"

/-- The generator constants `GEN` from `bech32_polymod`. -/
def GEN : List Nat := [0x3b6a57b2, 0x26508e6d, 0x1ea119fa, 0x3d4233dd, 0x2a1462b3]

/-- One iteration of the `for v in values` loop of `bech32_polymod`:
`b = (chk >> 25) & 0xFF; chk = ((chk & 0x1FFFFFF) << 5) ^ v;`
then `for i in range(5): chk ^= GEN[i] if ((b >> i) & 1) else 0`. -/
def polymodStep (chk v : Nat) : Nat :=
  let b := (chk >>> 25) &&& 0xFF
  let chk1 := ((chk &&& 0x1FFFFFF) <<< 5) ^^^ v
  (List.range 5).foldl (fun c i => if (b >>> i) &&& 1 = 1 then c ^^^ GEN.getD i 0 else c) chk1

/-- The accumulator `bech32_polymod(values)` with initial `chk = 1`. -/
def bech32_polymod (values : List Nat) : Nat := values.foldl polymodStep 1

/-- The expansion `bech32_hrp_expand(hrp)`: `[ord(x) >> 5 for x in hrp] + [0] + [ord(x) & 31 for x in hrp]`. -/
def bech32_hrp_expand (hrp : String) : List Nat :=
  hrp.data.map (fun c => c.toNat >>> 5) ++ [0] ++ hrp.data.map (fun c => c.toNat &&& 31)

/-- The checksum `bech32_create_checksum(hrp, data)`. -/
def bech32_create_checksum (hrp : String) (data : List Nat) : List Nat :=
  let values := bech32_hrp_expand hrp ++ data
  let polymod := bech32_polymod (values ++ [0, 0, 0, 0, 0, 0]) ^^^ 1
  (List.range 6).map (fun i => (polymod >>> (5 * (5 - i))) &&& 31)

/-- Indexing `CHARSET[d]` (the source indexes only with `d < 32`). -/
def charsetChar (d : Nat) : Char := CHARSET.data.getD d '?'

/-- Encoding: `bech32_encode(hrp, data) = hrp + "1" + "".join(CHARSET[d] for d in data + checksum)`. -/
def bech32_encode (hrp : String) (data : List Nat) : String :=
  hrp ++ "1" ++ String.mk ((data ++ bech32_create_checksum hrp data).map charsetChar)

/-- The inner `while bits >= tobits` loop of `convertbits`:
`bits -= tobits; ret.append((acc >> bits) & maxv)`.
Returns the final `(bits, ret)`.  (The `0 < t` guard only rules out the
`tobits = 0` case, on which the Python loop would not terminate.) -/
def emitAll (t maxv acc : Nat) (bits : Nat) (ret : List Nat) : Nat × List Nat :=
  if h : 0 < t ∧ t ≤ bits then
    emitAll t maxv acc (bits - t) (ret ++ [(acc >>> (bits - t)) &&& maxv])
  else (bits, ret)
termination_by bits
decreasing_by omega

/-- The `for value in data` loop of `convertbits`, threading `(acc, bits, ret)`;
`none` models the early `return None` on an out-of-range value. -/
def convertbitsGo (f t maxv : Nat) : List Nat → Nat → Nat → List Nat → Option (Nat × Nat × List Nat)
  | [], acc, bits, ret => some (acc, bits, ret)
  | v :: rest, acc, bits, ret =>
    if v >>> f ≠ 0 then none
    else
      let acc1 := (acc <<< f) ||| v
      let p := emitAll t maxv acc1 (bits + f) ret
      convertbitsGo f t maxv rest acc1 p.1 p.2

/-- Regrouping: `convertbits(data, frombits, tobits, pad)` from the source. -/
def convertbits (data : List Nat) (frombits tobits : Nat) (pad : Bool) : Option (List Nat) :=
  let maxv := (1 <<< tobits) - 1
  match convertbitsGo frombits tobits maxv data 0 0 [] with
  | none => none
  | some (acc, bits, ret) =>
    if pad then
      if bits ≠ 0 then some (ret ++ [(acc <<< (tobits - bits)) &&& maxv]) else some ret
    else if frombits ≤ bits ∨ (acc <<< (tobits - bits)) &&& maxv ≠ 0 then none
    else some ret

/-- The constant `VALCONS_PREFIX = "shidovalcons"`. -/
def VALCONS_PREFIX : String := "shidovalcons"

/-- The function `bytes20_to_valcons(addr20)`; the `bytes` type of the source guarantees
every element is `< 256`, which is the only case in which `convertbits`
returns a list, so the embedding returns an `Option`. -/
def bytes20_to_valcons (addr20 : List Nat) : Option String :=
  match convertbits addr20 8 5 true with
  | none => none
  | some data5 => some (bech32_encode VALCONS_PREFIX data5)

/-! ### Modelled bech32 decoder

The monitor itself never decodes; the spec (section 4.1 and section 8)
requires that the encoder's output "decodes (via the inverse checksum
verification) to the same 20 bytes".  The decoder below is therefore
*modelled from the spec*, as the standard inverse of the encoder: split at
the last separator `'1'`, map characters back through `CHARSET`, verify
`bech32_polymod(hrp_expand(hrp) ++ values) == 1`, strip the 6 checksum
values and regroup 5-bit values into bytes with `convertbits(_, 5, 8, False)`. -/

/-- Modelled from the spec: position of a character in `CHARSET`, if any. -/
def charsetIndex (c : Char) : Option Nat :=
  let i := CHARSET.data.indexOf c
  if i < 32 then some i else none

/-- Modelled from the spec: map every data character back to its 5-bit value. -/
def decodeChars : List Char → Option (List Nat)
  | [] => some []
  | c :: rest =>
    match charsetIndex c, decodeChars rest with
    | some v, some vs => some (v :: vs)
    | _, _ => none

/-- Modelled from the spec: a character other than the separator `'1'`. -/
def notSep (c : Char) : Bool := c ≠ '1'

/-- Modelled from the spec: generic bech32 decode with checksum verification.
Returns the human-readable part and the 5-bit data values (checksum removed). -/
def bech32_decode (s : String) : Option (String × List Nat) :=
  let rev := s.data.reverse
  let dataRev := rev.takeWhile notSep
  match rev.dropWhile notSep with
  | [] => none
  | _ :: hrpRev =>
    match decodeChars dataRev.reverse with
    | none => none
    | some vals =>
      if 6 ≤ vals.length then
        if bech32_polymod (bech32_hrp_expand (String.mk hrpRev.reverse) ++ vals) = 1 then
          some (String.mk hrpRev.reverse, vals.take (vals.length - 6))
        else none
      else none

/-- Modelled from the spec: decode a valcons address back to its 20 raw bytes,
checking the human-readable part. -/
def valcons_decode (s : String) : Option (List Nat) :=
  match bech32_decode s with
  | none => none
  | some (hrp, data) =>
    if hrp = VALCONS_PREFIX then convertbits data 5 8 false else none

/-! ### Percentile query (`percentile_from_samples`, `diagnose_proposer.py`) -/

/-- Python 3 `round` for exact values: round half to even ("banker's rounding"). -/
def pyRound (q : ℚ) : ℤ :=
  let f := ⌊q⌋
  let r := q - (f : ℚ)
  if r < 1 / 2 then f
  else if 1 / 2 < r then f + 1
  else if f % 2 = 0 then f else f + 1

/-- The query `percentile_from_samples(samples, p)`: sort ascending, pick index
`round(p / 100 * (n - 1))` clamped to `[0, n - 1]`; `None` when empty.
Durations are modelled as exact rationals. -/
def percentile_from_samples (samples : List ℚ) (p : ℚ) : Option ℚ :=
  if samples = [] then none
  else
    let s := samples.insertionSort (· ≤ ·)
    let n : ℤ := s.length
    let k := pyRound (p / 100 * ((n : ℚ) - 1))
    some (s.getD (max 0 (min k (n - 1))).toNat 0)

/-! ### `btlive.py` sliding window -/

/-- The constant `WINDOW = 50` in `btlive.py`. -/
def WINDOW : Nat := 50

/-- The sliding-window state of `btlive.py`: the deque `block_times` and the
incrementally maintained `window_sum`. -/
structure BtState where
  block_times : List ℚ
  window_sum : ℚ

/-- One record step of the `btlive.py` loop body (lines 70-74):
`block_times.append(per_block); window_sum += per_block;
if len(block_times) > WINDOW: window_sum -= block_times.popleft()`. -/
def recordBt (st : BtState) (per_block : ℚ) : BtState :=
  let bt := st.block_times ++ [per_block]
  let ws := st.window_sum + per_block
  if WINDOW < bt.length then
    { block_times := bt.tail, window_sum := ws - bt.headD 0 }
  else
    { block_times := bt, window_sum := ws }

/-! ### Per-validator statistics (`diagnose_proposer.py`) -/

/-- The constant `FAST_THRESHOLD = 0.7`. -/
def FAST_THRESHOLD : ℚ := 7 / 10

/-- The constant `FAIL_THRESHOLD = 5.0`. -/
def FAIL_THRESHOLD : ℚ := 5

/-- The constant `SAMPLE_MAX = 200`. -/
def SAMPLE_MAX : Nat := 200

/-- The constant `VALIDATORSET_REFRESH_EVERY = 200`. -/
def VALIDATORSET_REFRESH_EVERY : Nat := 200

/-- One entry of the `stats` defaultdict: `count`, `sum`, `min` (starts at
`float("inf")`, modelled as the top element of `WithTop ℚ`), `max`, `fast`,
`fail`, and the bounded `samples` deque. -/
structure CadenceStats where
  count : Nat
  sum : ℚ
  min : WithTop ℚ
  max : ℚ
  fast : Nat
  fail : Nat
  samples : List ℚ
deriving DecidableEq

/-- The defaultdict initialiser:
`{"count": 0, "sum": 0.0, "min": inf, "max": 0.0, "fast": 0, "fail": 0, "samples": deque(maxlen=SAMPLE_MAX)}`. -/
def initStats : CadenceStats :=
  { count := 0, sum := 0, min := ⊤, max := 0, fast := 0, fail := 0, samples := [] }

/-- The per-valcons statistics update of the loop body (lines 249-266):
`st["count"] += 1; st["sum"] += per_block; st["min"] = min(st["min"], per_block);
st["max"] = max(st["max"], per_block); st["samples"].append(per_block)`
(`deque(maxlen=200)` drops the oldest element past capacity), and the
`is_fast` / `is_fail` classification. -/
def recordStat (st : CadenceStats) (per_block : ℚ) : CadenceStats :=
  let samples1 := st.samples ++ [per_block]
  { count := st.count + 1
    sum := st.sum + per_block
    min := min st.min (per_block : WithTop ℚ)
    max := max st.max per_block
    fast := if per_block ≤ FAST_THRESHOLD then st.fast + 1 else st.fast
    fail := if FAIL_THRESHOLD ≤ per_block then st.fail + 1 else st.fail
    samples := if SAMPLE_MAX < samples1.length then samples1.tail else samples1 }

/-! ### Validator directory (`diagnose_proposer.py`) -/

/-- One item of the `tendermint-validator-set` reply: `address`,
`pub_key.key` and `voting_power` (each possibly missing). -/
structure ValsetItem where
  address : Option String
  pub_key_key : Option String
  voting_power : Option Int
deriving DecidableEq

/-- A value of the `valcons_map` cache: `{"pubkey_b64": ..., "power": ...}`. -/
structure ValEntry where
  pubkey_b64 : String
  power : Option Int
deriving DecidableEq

/-- The `newmap` construction of `refresh_valset`: keep items whose
`address` and `pub_key.key` are present and truthy (non-empty), later
assignments to the same address overwriting earlier ones. -/
def buildValmap (vlist : List ValsetItem) : String → Option ValEntry :=
  vlist.foldl
    (fun m item =>
      match item.address, item.pub_key_key with
      | some valcons, some pubkey =>
        if valcons ≠ "" ∧ pubkey ≠ "" then
          Function.update m valcons (some { pubkey_b64 := pubkey, power := item.voting_power })
        else m
      | _, _ => m)
    (fun _ => none)

/-- One descriptor of the `staking validators` reply:
`description.moniker` and `consensus_pubkey.value` (each possibly missing). -/
structure StakingVal where
  moniker : Option String
  pubkey_value : Option String
deriving DecidableEq

/-- Python `str.strip()`: remove whitespace from both ends. -/
def pyStrip (s : String) : String :=
  String.mk
    (((s.data.dropWhile (fun c => c.isWhitespace)).reverse.dropWhile
      (fun c => c.isWhitespace)).reverse)

/-- The `pubkey_to_moniker` construction (lines 136-149):
`moniker = (desc.get("moniker") or "").strip(); pk_b64 = cpk.get("value");
if pk_b64 and moniker: pubkey_to_moniker[pk_b64] = moniker`. -/
def build_moniker_index (vals : List StakingVal) : String → Option String :=
  vals.foldl
    (fun m v =>
      let moniker := pyStrip (v.moniker.getD "")
      match v.pubkey_value with
      | some pk => if pk ≠ "" ∧ moniker ≠ "" then Function.update m pk (some moniker) else m
      | none => m)
    (fun _ => none)

/-! ### Polling orchestrator state (`diagnose_proposer.py` main loop) -/

/-- The mutable globals of the `diagnose_proposer.py` loop in steady state
(after the first successful status fetch fixed `last_height`/`last_time`). -/
structure MonState where
  pubkey_to_moniker : String → Option String
  valcons_map : String → Option ValEntry
  last_valset_height : Option Nat
  stats : String → CadenceStats
  total_blocks : Nat
  total_time : ℚ
  fast_blocks : Nat
  fail_blocks : Nat
  last_height : Nat
  last_time : ℚ

/-- The function `refresh_valset(h)` as called from the loop, i.e. wrapped in
`try: ... except: pass`: the oracle returning `none` models a raised
exception, which leaves the state untouched. -/
def refresh_valset (getValset : Nat → Option (List ValsetItem)) (st : MonState) (h : Nat) :
    MonState :=
  match getValset h with
  | none => st
  | some vlist =>
    { st with valcons_map := buildValmap vlist, last_valset_height := some h }

/-- The refresh condition of line 214:
`last_valset_height is None or (height - last_valset_height >= VALIDATORSET_REFRESH_EVERY)`
(on `Nat`, truncated subtraction agrees with the Python integer test because
the threshold is positive). -/
def shouldRefresh (lvh : Option Nat) (height : Nat) : Bool :=
  match lvh with
  | none => true
  | some l => VALIDATORSET_REFRESH_EVERY ≤ height - l

/-- The body of `for i in range(1, blocks_advanced + 1)` (lines 220-275)
for one height `h`: fetch the block's proposer (the oracle returning `none`
models both a fetch failure and a missing header field), compute the
valcons label, and update the global and per-valcons statistics.
The printed label resolution does not touch the state and is omitted. -/
def recordHeight (getBlockProposer : Nat → Option (List Nat)) (s : MonState) (h : Nat)
    (per_block : ℚ) : MonState :=
  let valcons :=
    match getBlockProposer h with
    | none => "unknown"
    | some addr20 =>
      if addr20.length = 20 then
        match bytes20_to_valcons addr20 with
        | some v => v
        | none => "unknown"
      else "unknown"
  { s with
    total_blocks := s.total_blocks + 1
    total_time := s.total_time + per_block
    fast_blocks := if per_block ≤ FAST_THRESHOLD then s.fast_blocks + 1 else s.fast_blocks
    fail_blocks := if FAIL_THRESHOLD ≤ per_block then s.fail_blocks + 1 else s.fail_blocks
    stats := Function.update s.stats valcons (recordStat (s.stats valcons) per_block) }

/-- One steady-state poll tick of the main loop (lines 206-280), given the
fetched status `(height, ts)`: if the height advanced and the elapsed time
is positive, refresh the validator directory when due and record one
observation per intervening height; in every advancing case
`last_height`/`last_time` move to the new values. -/
def tick (getValset : Nat → Option (List ValsetItem)) (getBlockProposer : Nat → Option (List Nat))
    (st : MonState) (height : Nat) (ts : ℚ) : MonState :=
  if st.last_height < height then
    let blocks_advanced := height - st.last_height
    let delta_total := ts - st.last_time
    let st1 :=
      if 0 < delta_total then
        let per_block := delta_total / (blocks_advanced : ℚ)
        let st2 :=
          if shouldRefresh st.last_valset_height height then refresh_valset getValset st height
          else st
        (List.range blocks_advanced).foldl
          (fun s i => recordHeight getBlockProposer s (st.last_height + i + 1) per_block) st2
      else st
    { st1 with last_height := height, last_time := ts }
  else st

/-- The observations `(h, per_block)` produced by one steady-state tick
(the `(h, per_block)` pairs fed to the statistics updates by the
`for i in range(1, blocks_advanced + 1)` loop, empty when the height did
not advance or the elapsed time is non-positive). -/
def tick_observations (last_height height : Nat) (last_time ts : ℚ) : List (Nat × ℚ) :=
  if last_height < height then
    let blocks_advanced := height - last_height
    let delta_total := ts - last_time
    if 0 < delta_total then
      (List.range blocks_advanced).map
        (fun i => (last_height + i + 1, delta_total / (blocks_advanced : ℚ)))
    else []
  else []

/-- Spec-side companion of `build_moniker_index`: the `(pubkey, moniker)`
pairs of the descriptors that are *not* skipped (both fields present and
non-empty after stripping), in snapshot order.  Used to state which
occurrence wins on duplicate keys. -/
def validPairs (vals : List StakingVal) : List (String × String) :=
  vals.filterMap
    (fun v =>
      let moniker := pyStrip (v.moniker.getD "")
      match v.pubkey_value with
      | some pk => if pk ≠ "" ∧ moniker ≠ "" then some (pk, moniker) else none
      | none => none)


/-! Definitions supporting the bech32 correctness proofs. -/

/-- Big-endian value of a list of `w`-bit groups:
`beNum w [a, b, c] = ((a * 2^w) + b) * 2^w + c`. -/
def beNum (w : Nat) (l : List Nat) : Nat := l.foldl (fun a v => a * 2 ^ w + v) 0

/-- XOR of the `GEN` constants selected by the low five bits of `b`
(closed form of the inner `for i in range(5)` loop of `bech32_polymod`). -/
def genSum (b : Nat) : Nat :=
  (if (b >>> 0) &&& 1 = 1 then 0x3b6a57b2 else 0) ^^^
  ((if (b >>> 1) &&& 1 = 1 then 0x26508e6d else 0) ^^^
  ((if (b >>> 2) &&& 1 = 1 then 0x1ea119fa else 0) ^^^
  ((if (b >>> 3) &&& 1 = 1 then 0x3d4233dd else 0) ^^^
  (if (b >>> 4) &&& 1 = 1 then 0x2a1462b3 else 0))))

/-- Applying `polymodStep` on the value `0`: the GF(2)-linear part of the step. -/
def polyCore (chk : Nat) : Nat := polymodStep chk 0

/-- A concrete orchestrator state (all caches empty) used by the closed
witness and counterexample theorems. -/
def mkMonState (lh : Nat) (lt : ℚ) (lvh : Option Nat) : MonState :=
  { pubkey_to_moniker := fun _ => none
    valcons_map := fun _ => none
    last_valset_height := lvh
    stats := fun _ => initStats
    total_blocks := 0
    total_time := 0
    fast_blocks := 0
    fail_blocks := 0
    last_height := lh
    last_time := lt }

/-- An oracle on which every validator-set query fails. -/
def noValset : Nat → Option (List ValsetItem) := fun _ => none

/-- An oracle on which every validator-set query succeeds with one item. -/
def oneValset : Nat → Option (List ValsetItem) :=
  fun _ => some [{ address := some "a", pub_key_key := some "k", voting_power := some 1 }]

/-- An oracle on which every block query fails. -/
def noBlock : Nat → Option (List Nat) := fun _ => none

/-! ## Theorems -/

/-! ### C2: sliding-window running sum (`btlive.py`) -/

/-- One step of the `btlive.py` window preserves its characterisation. -/
theorem recordBt_step (st : BtState) (ds : List ℚ) (d : ℚ)
    (h1 : st.block_times = ds.drop (ds.length - WINDOW))
    (h2 : st.window_sum = st.block_times.sum) :
    (recordBt st d).block_times = (ds ++ [d]).drop ((ds ++ [d]).length - WINDOW) ∧
    (recordBt st d).window_sum = (recordBt st d).block_times.sum := by
  have hW : WINDOW = 50 := rfl
  have hL : st.block_times.length = ds.length - (ds.length - WINDOW) := by
    rw [h1, List.length_drop]
  have hlen1 : (ds ++ [d]).length = ds.length + 1 := by simp
  by_cases hn : ds.length < WINDOW
  · have hd0 : ds.length - WINDOW = 0 := by omega
    have hbt : st.block_times = ds := by rw [h1, hd0, List.drop_zero]
    have hc : ¬ WINDOW < (st.block_times ++ [d]).length := by
      rw [hbt, List.length_append, List.length_singleton]; omega
    have hrec : recordBt st d = { block_times := ds ++ [d], window_sum := st.window_sum + d } := by
      simp only [recordBt]
      rw [if_neg hc, hbt]
    have hd1 : (ds ++ [d]).length - WINDOW = 0 := by omega
    rw [hrec, hd1]
    constructor
    · rw [List.drop_zero]
    · rw [h2, hbt]
      simp
  · have hlen50 : st.block_times.length = WINDOW := by omega
    have hne : st.block_times ≠ [] := by
      intro h
      rw [h] at hlen50
      simp [WINDOW] at hlen50
    obtain ⟨c, t, hct⟩ : ∃ c t, st.block_times = c :: t := by
      cases hbt : st.block_times with
      | nil => exact absurd hbt hne
      | cons c t => exact ⟨c, t, rfl⟩
    have hc : WINDOW < (st.block_times ++ [d]).length := by
      rw [List.length_append, List.length_singleton, hlen50]; omega
    have hrec : recordBt st d = { block_times := t ++ [d], window_sum := st.window_sum + d - c } := by
      simp only [recordBt]
      rw [if_pos hc, hct]
      rfl
    have hdrop : t = ds.drop (ds.length + 1 - WINDOW) := by
      have ht : st.block_times.tail = ds.drop (ds.length - WINDOW + 1) := by
        rw [h1, List.tail_drop]
      have harith : ds.length - WINDOW + 1 = ds.length + 1 - WINDOW := by omega
      rw [hct, harith] at ht
      exact ht
    rw [hrec]
    constructor
    · have hle : (ds ++ [d]).length - WINDOW ≤ ds.length := by rw [hlen1]; omega
      rw [hlen1] at hle ⊢
      rw [List.drop_append_of_le_length hle, ← hdrop]
    · have hsum : st.window_sum = c + t.sum := by
        rw [h2, hct]
        simp
      rw [hsum]
      simp
      ring

/-- The precise shape of the `btlive.py` window after any duration sequence:
it holds the last `WINDOW` durations and `window_sum` is their exact sum. -/
theorem recordBt_fold_spec (ds : List ℚ) :
    (ds.foldl recordBt ⟨[], 0⟩).block_times = ds.drop (ds.length - WINDOW) ∧
    (ds.foldl recordBt ⟨[], 0⟩).window_sum = (ds.foldl recordBt ⟨[], 0⟩).block_times.sum := by
  induction ds using List.reverseRecOn with
  | nil => simp [WINDOW]
  | append_singleton ds d ih =>
    rw [List.foldl_append, List.foldl_cons, List.foldl_nil]
    exact recordBt_step _ ds d ih.1 ih.2

/-- C2: after every record step of the `btlive.py` loop, `window_sum` equals
the exact sum of the values currently in the `block_times` deque, the deque
holds at most `WINDOW = 50` values, and its contents are exactly the most
recent durations (the oldest evicted and subtracted past capacity). -/
theorem C2_window_sum_invariant (ds : List ℚ) :
    (ds.foldl recordBt ⟨[], 0⟩).window_sum = (ds.foldl recordBt ⟨[], 0⟩).block_times.sum ∧
    (ds.foldl recordBt ⟨[], 0⟩).block_times.length ≤ WINDOW ∧
    (ds.foldl recordBt ⟨[], 0⟩).block_times = ds.drop (ds.length - WINDOW) := by
  obtain ⟨h1, h2⟩ := recordBt_fold_spec ds
  refine ⟨h2, ?_, h1⟩
  rw [h1, List.length_drop]
  omega

/-! ### C3 / C10: percentile query -/

/-- C3: `percentile_from_samples` returns the no-data sentinel on an empty
sample list, returns `3` for `[1,2,3,4,5]` at p = 50 and `2` for `[1,2]` at
p = 95, and in general selects, from the ascending sort of the samples, the
element at index `round(p/100 * (n-1))` clamped to `[0, n-1]`
(nearest rank, no interpolation). -/
theorem C3_percentile_semantics :
    (∀ p : ℚ, percentile_from_samples [] p = none) ∧
    percentile_from_samples [1, 2, 3, 4, 5] 50 = some 3 ∧
    percentile_from_samples [1, 2] 95 = some 2 ∧
    ∀ (samples : List ℚ) (p : ℚ),
      percentile_from_samples samples p =
        if samples = [] then none
        else
          some ((samples.insertionSort (· ≤ ·)).getD
            (max 0 (min (pyRound (p / 100 * ((samples.length : ℚ) - 1)))
              ((samples.length : ℤ) - 1))).toNat 0) := by
  refine ⟨fun p => rfl, ?_, ?_, fun samples p => ?_⟩
  · norm_num [percentile_from_samples, pyRound, List.insertionSort, List.orderedInsert,
      List.getD]
    exact ⟨by simp, rfl⟩
  · norm_num [percentile_from_samples, pyRound, List.insertionSort, List.orderedInsert,
      List.getD]
    exact fun h => absurd h (by simp)
  by_cases h : samples = []
  · simp [percentile_from_samples, h]
  · simp only [percentile_from_samples, h, if_neg, ite_false]
    rw [List.length_insertionSort]
    norm_num

/-- C10: on a non-empty sample list the percentile query returns one of the
samples themselves, for any percentile `p`. -/
theorem C10_percentile_membership (samples : List ℚ) (p : ℚ) (h : samples ≠ []) :
    ∃ x ∈ samples, percentile_from_samples samples p = some x := by
  have hpos : 0 < samples.length := List.length_pos.mpr h
  have hlen : (samples.insertionSort (· ≤ ·)).length = samples.length :=
    List.length_insertionSort (· ≤ ·) samples
  have key : ∀ i : ℕ, i < (samples.insertionSort (· ≤ ·)).length →
      (samples.insertionSort (· ≤ ·)).getD i 0 ∈ samples := by
    intro i hi
    rw [List.getD_eq_getElem?_getD, List.getElem?_eq_getElem hi, Option.getD_some]
    exact ((List.perm_insertionSort (· ≤ ·) samples).mem_iff).mp (List.getElem_mem hi)
  simp only [percentile_from_samples, h, ite_false]
  refine ⟨_, key _ ?_, rfl⟩
  rw [hlen]
  omega

/-- Closed witness for C10 at a concrete non-empty sample list. -/
theorem C10_percentile_membership_witness :
    ∃ x ∈ ([5] : List ℚ), percentile_from_samples [5] 0 = some x :=
  C10_percentile_membership [5] 0 (by decide)

/-! ### C4: height-gap amortization -/

/-- C4: in steady state with `last_height = 100` at time `T`, a new status
`(height = 103, T + 3s)` produces exactly the three observations
`(101, 1.0)`, `(102, 1.0)`, `(103, 1.0)`: the elapsed time is divided
evenly over the blocks advanced and applied to every intervening height. -/
theorem C4_height_gap_amortization (T : ℚ) :
    tick_observations 100 103 T (T + 3) = [(101, 1), (102, 1), (103, 1)] := by
  have hd : T + 3 - T = 3 := by ring
  norm_num [tick_observations, hd, List.range_succ]

/-! ### C5: non-positive elapsed time -/

/-- C5: on a steady-state tick where the height advanced but the elapsed
time is non-positive, the state is unchanged except that `last_height` and
`last_time` advance to the new values: no observation is recorded and no
statistics field (global counters, per-scope stats, caches) changes. -/
theorem C5_clock_anomaly (o : Nat → Option (List ValsetItem)) (g : Nat → Option (List Nat))
    (st : MonState) (height : Nat) (ts : ℚ)
    (hadv : st.last_height < height) (helapsed : ts - st.last_time ≤ 0) :
    tick o g st height ts = { st with last_height := height, last_time := ts } := by
  have h1 : ¬ (0 < ts - st.last_time) := by linarith
  simp only [tick]
  rw [if_pos hadv, if_neg h1]

/-- Closed witness for C5: a concrete advancing tick with equal timestamps. -/
theorem C5_clock_anomaly_witness :
    tick noValset noBlock (mkMonState 100 3 none) 103 3 =
      { mkMonState 100 3 none with last_height := 103, last_time := 3 } :=
  C5_clock_anomaly noValset noBlock (mkMonState 100 3 none) 103 3 (by decide)
    (by norm_num [mkMonState])

/-! ### C7: directory refresh idempotence -/

/-- C7: with a fixed height and a fixed snapshot oracle, refreshing the
validator directory twice yields exactly the same address table (and
recorded refresh height) as refreshing once: the table is rebuilt from the
snapshot alone and swapped wholesale, so nothing accumulates across calls. -/
theorem C7_refresh_idempotent (o : Nat → Option (List ValsetItem)) (st : MonState) (h : Nat) :
    (refresh_valset o (refresh_valset o st h) h).valcons_map =
      (refresh_valset o st h).valcons_map ∧
    (refresh_valset o (refresh_valset o st h) h).last_valset_height =
      (refresh_valset o st h).last_valset_height := by
  cases ho : o h <;> simp [refresh_valset, ho]

/-! ### C9: validator-set refresh cadence -/

/-- The update `recordHeight` never touches the directory caches. -/
theorem recordHeight_preserves (g : Nat → Option (List Nat)) (s : MonState) (h : Nat) (p : ℚ) :
    (recordHeight g s h p).valcons_map = s.valcons_map ∧
    (recordHeight g s h p).last_valset_height = s.last_valset_height := by
  simp [recordHeight]

/-- Folding `recordHeight` over any height list never touches the caches. -/
theorem foldl_recordHeight_preserves (g : Nat → Option (List Nat)) (p : ℚ) (base : Nat)
    (l : List Nat) :
    ∀ s : MonState,
      ((l.foldl (fun s i => recordHeight g s (base + i + 1) p) s).valcons_map = s.valcons_map ∧
      (l.foldl (fun s i => recordHeight g s (base + i + 1) p) s).last_valset_height =
        s.last_valset_height) := by
  induction l with
  | nil => intro s; exact ⟨rfl, rfl⟩
  | cons a l ih =>
    intro s
    rw [List.foldl_cons]
    obtain ⟨ih1, ih2⟩ := ih (recordHeight g s (base + a + 1) p)
    obtain ⟨h1, h2⟩ := recordHeight_preserves g s (base + a + 1) p
    exact ⟨ih1.trans h1, ih2.trans h2⟩

/-- C9 (counterexample to the claim as stated): on a steady-state tick whose
height did not advance, no refresh is attempted even though the refresh
condition `height - last_refresh_height >= 200` holds: the tick leaves
`last_valset_height` at `some 0` although an attempted refresh with the same
oracle succeeds and would have recorded `some 300`. -/
theorem C9_every_tick_counterexample :
    shouldRefresh (some 0) 300 = true ∧
    tick oneValset noBlock (mkMonState 300 0 (some 0)) 300 5 = mkMonState 300 0 (some 0) ∧
    (refresh_valset oneValset (mkMonState 300 0 (some 0)) 300).last_valset_height = some 300 := by
  refine ⟨by decide, ?_, by simp [refresh_valset, oneValset, mkMonState]⟩
  simp only [tick]
  rw [if_neg (by decide : ¬ (mkMonState 300 0 (some 0)).last_height < 300)]

/-- C9 (amended): on every steady-state tick that advances the height with
positive elapsed time, the refresh condition is evaluated once for the whole
tick — using the tick's resulting height, independent of how many heights
were skipped — and the refresh is attempted exactly when it holds. -/
theorem C9_refresh_once_per_advancing_tick (o : Nat → Option (List ValsetItem))
    (g : Nat → Option (List Nat)) (st : MonState) (height : Nat) (ts : ℚ)
    (hadv : st.last_height < height) (hpos : 0 < ts - st.last_time) :
    (tick o g st height ts).last_valset_height =
      (if shouldRefresh st.last_valset_height height then
        (refresh_valset o st height).last_valset_height
      else st.last_valset_height) ∧
    (tick o g st height ts).valcons_map =
      (if shouldRefresh st.last_valset_height height then
        (refresh_valset o st height).valcons_map
      else st.valcons_map) := by
  simp only [tick]
  rw [if_pos hadv, if_pos hpos]
  by_cases hc : shouldRefresh st.last_valset_height height
  · rw [if_pos hc, if_pos hc, if_pos hc]
    constructor
    · exact (foldl_recordHeight_preserves g _ st.last_height
        (List.range (height - st.last_height)) (refresh_valset o st height)).2
    · exact (foldl_recordHeight_preserves g _ st.last_height
        (List.range (height - st.last_height)) (refresh_valset o st height)).1
  · rw [if_neg hc, if_neg hc, if_neg hc]
    constructor
    · exact (foldl_recordHeight_preserves g _ st.last_height
        (List.range (height - st.last_height)) st).2
    · exact (foldl_recordHeight_preserves g _ st.last_height
        (List.range (height - st.last_height)) st).1

/-- Closed witness for the amended C9 at a concrete advancing tick. -/
theorem C9_refresh_once_witness :
    (tick noValset noBlock (mkMonState 100 0 none) 101 1).last_valset_height =
      (if shouldRefresh (mkMonState 100 0 none).last_valset_height 101 then
        (refresh_valset noValset (mkMonState 100 0 none) 101).last_valset_height
      else (mkMonState 100 0 none).last_valset_height) ∧
    (tick noValset noBlock (mkMonState 100 0 none) 101 1).valcons_map =
      (if shouldRefresh (mkMonState 100 0 none).last_valset_height 101 then
        (refresh_valset noValset (mkMonState 100 0 none) 101).valcons_map
      else (mkMonState 100 0 none).valcons_map) :=
  C9_refresh_once_per_advancing_tick noValset noBlock (mkMonState 100 0 none) 101 1 (by decide)
    (by norm_num [mkMonState])

/-! ### C6: moniker index construction -/

/-- C6 (counterexample to the claim as stated): with two snapshot entries
carrying the same public key `"PK"` and different monikers, the index maps
`"PK"` to the moniker of the *second* entry, not the first: in the source,
`pubkey_to_moniker[pk_b64] = moniker` overwrites earlier assignments. -/
theorem C6_first_occurrence_counterexample :
    build_moniker_index
      [{ moniker := some "m1", pubkey_value := some "PK" },
       { moniker := some "m2", pubkey_value := some "PK" }] "PK" = some "m2" ∧
    (some "m2" : Option String) ≠ some "m1" := by
  constructor
  · simp [build_moniker_index, pyStrip, Function.update]
  · decide

/-- C6 (amended): the moniker index skips every entry missing either a
(non-empty, stripped) moniker or a public key, and maps each remaining
public key to the moniker of its *last* occurrence in the snapshot
(`lookup` on the reversed list of surviving pairs finds the last one). -/
theorem C6_moniker_index_last_wins (vals : List StakingVal) (pk : String) :
    build_moniker_index vals pk = ((validPairs vals).reverse).lookup pk := by
  induction vals using List.reverseRecOn with
  | nil => rfl
  | append_singleton rest v ih =>
    cases hpv : v.pubkey_value with
    | none =>
      have hb : build_moniker_index (rest ++ [v]) pk = build_moniker_index rest pk := by
        simp only [build_moniker_index, List.foldl_append, List.foldl_cons, List.foldl_nil]
        simp only [hpv]
      have hvp : validPairs (rest ++ [v]) = validPairs rest := by
        simp [validPairs, hpv]
      rw [hb, hvp, ih]
    | some pk1 =>
      by_cases hcond : pk1 ≠ "" ∧ pyStrip (v.moniker.getD "") ≠ ""
      · have hb : build_moniker_index (rest ++ [v]) pk =
            Function.update (build_moniker_index rest) pk1
              (some (pyStrip (v.moniker.getD ""))) pk := by
          simp only [build_moniker_index, List.foldl_append, List.foldl_cons, List.foldl_nil]
          simp only [hpv]
          rw [if_pos hcond]
        have hvp : validPairs (rest ++ [v]) =
            validPairs rest ++ [(pk1, pyStrip (v.moniker.getD ""))] := by
          simp [validPairs, hpv, hcond]
        rw [hb, hvp, List.reverse_append, List.reverse_singleton, List.singleton_append,
          List.lookup_cons, Function.update_apply]
        by_cases heq : pk = pk1
        · have hbeq : (pk == pk1) = true := by simp [heq]
          rw [if_pos heq, hbeq]
        · have hbeq : (pk == pk1) = false := by simp [heq]
          rw [if_neg heq, hbeq, ih]
      · have hb : build_moniker_index (rest ++ [v]) pk = build_moniker_index rest pk := by
          simp only [build_moniker_index, List.foldl_append, List.foldl_cons, List.foldl_nil]
          simp only [hpv]
          rw [if_neg hcond]
        have hvp : validPairs (rest ++ [v]) = validPairs rest := by
          simp only [validPairs, List.filterMap_append]
          have : validPairs [v] = [] := by
            simp only [validPairs, List.filterMap]
            rw [hpv]
            simp [hcond]
          simp only [validPairs] at this
          rw [this, List.append_nil]
        rw [hb, hvp, ih]

/-! ### C8: lifetime min / average / max invariant -/

/-- Invariant of the per-scope statistics fold: the count tracks the number
of recorded durations, and once positive, the comparison-maintained `min`
is a finite value with `min * count ≤ sum ≤ max * count`. -/
theorem recordStat_fold_inv (ds : List ℚ) :
    (ds.foldl recordStat initStats).count = ds.length ∧
    (0 < (ds.foldl recordStat initStats).count →
      ∃ m : ℚ, (ds.foldl recordStat initStats).min = (m : WithTop ℚ) ∧
        m * ((ds.foldl recordStat initStats).count : ℚ) ≤ (ds.foldl recordStat initStats).sum ∧
        (ds.foldl recordStat initStats).sum ≤
          (ds.foldl recordStat initStats).max * ((ds.foldl recordStat initStats).count : ℚ)) := by
  induction ds using List.reverseRecOn with
  | nil => exact ⟨rfl, fun h => absurd h (by simp [initStats])⟩
  | append_singleton ds d ih =>
    obtain ⟨hcount, hinv⟩ := ih
    rw [List.foldl_append, List.foldl_cons, List.foldl_nil]
    rcases Nat.eq_zero_or_pos (ds.foldl recordStat initStats).count with hz | hp
    · have hnil : ds = [] := List.length_eq_zero.mp (hcount ▸ hz)
      subst hnil
      refine ⟨by simp [recordStat, initStats], fun _ => ⟨d, ?_, ?_, ?_⟩⟩
      · simp [recordStat, initStats]
      · simp [recordStat, initStats]
      · simp only [List.foldl_nil, recordStat, initStats]
        simp
    · obtain ⟨m, hmin, hlow, hhigh⟩ := hinv hp
      constructor
      · simp [recordStat, hcount]
      · intro _
        refine ⟨min m d, ?_, ?_, ?_⟩
        · simp only [recordStat, hmin]
          exact (WithTop.coe_min m d).symm
        · simp only [recordStat]
          push_cast
          have h1 : min m d * ((ds.foldl recordStat initStats).count : ℚ) ≤
              m * ((ds.foldl recordStat initStats).count : ℚ) :=
            mul_le_mul_of_nonneg_right (min_le_left m d) (by positivity)
          have h2 : min m d ≤ d := min_le_right m d
          nlinarith [hlow]
        · simp only [recordStat]
          push_cast
          have h1 : (ds.foldl recordStat initStats).max *
              ((ds.foldl recordStat initStats).count : ℚ) ≤
              max (ds.foldl recordStat initStats).max d *
                ((ds.foldl recordStat initStats).count : ℚ) :=
            mul_le_mul_of_nonneg_right (le_max_left _ d) (by positivity)
          have h2 : d ≤ max (ds.foldl recordStat initStats).max d := le_max_right _ d
          nlinarith [hhigh]

/-- C8: for any sequence of `record` calls on one statistics scope (the
global scope or one proposer's), whenever `count > 0` the lifetime
invariant `min ≤ sum / count ≤ max` holds, with `min`/`max` maintained
only by per-call comparison against the newly recorded duration. -/
theorem C8_min_avg_max (ds : List ℚ)
    (hpos : 0 < (ds.foldl recordStat initStats).count) :
    (ds.foldl recordStat initStats).min ≤
      (((ds.foldl recordStat initStats).sum /
        ((ds.foldl recordStat initStats).count : ℚ) : ℚ) : WithTop ℚ) ∧
    (ds.foldl recordStat initStats).sum / ((ds.foldl recordStat initStats).count : ℚ) ≤
      (ds.foldl recordStat initStats).max := by
  obtain ⟨-, hinv⟩ := recordStat_fold_inv ds
  obtain ⟨m, hmin, hlow, hhigh⟩ := hinv hpos
  have hc : (0 : ℚ) < ((ds.foldl recordStat initStats).count : ℚ) := by
    exact_mod_cast hpos
  constructor
  · rw [hmin]
    exact_mod_cast (le_div_iff₀ hc).mpr hlow
  · exact (div_le_iff₀ hc).mpr hhigh

/-- Closed witness for C8 at the one-element duration sequence `[2]`. -/
theorem C8_min_avg_max_witness :
    (([2] : List ℚ).foldl recordStat initStats).min ≤
      (((([2] : List ℚ).foldl recordStat initStats).sum /
        ((([2] : List ℚ).foldl recordStat initStats).count : ℚ) : ℚ) : WithTop ℚ) ∧
    (([2] : List ℚ).foldl recordStat initStats).sum /
        ((([2] : List ℚ).foldl recordStat initStats).count : ℚ) ≤
      (([2] : List ℚ).foldl recordStat initStats).max :=
  C8_min_avg_max [2] (by simp [recordStat, initStats])

/-! ### C1: bech32 round-trip.  Step 1: the polymod step is GF(2)-linear. -/

/-- Closed form of one `bech32_polymod` iteration. -/
theorem polymodStep_closed (chk v : Nat) :
    polymodStep chk v =
      (((chk &&& 0x1FFFFFF) <<< 5) ^^^ v) ^^^ genSum ((chk >>> 25) &&& 0xFF) := by
  have hr : List.range 5 = [0, 1, 2, 3, 4] := rfl
  simp only [polymodStep, hr, List.foldl_cons, List.foldl_nil]
  have hg0 : GEN.getD 0 0 = 0x3b6a57b2 := rfl
  have hg1 : GEN.getD 1 0 = 0x26508e6d := rfl
  have hg2 : GEN.getD 2 0 = 0x1ea119fa := rfl
  have hg3 : GEN.getD 3 0 = 0x3d4233dd := rfl
  have hg4 : GEN.getD 4 0 = 0x2a1462b3 := rfl
  rw [hg0, hg1, hg2, hg3, hg4, genSum]
  split_ifs <;> (try simp only [Nat.xor_zero, Nat.zero_xor]) <;> ac_rfl

/-- Closed form of the linear part. -/
theorem polyCore_closed (chk : Nat) :
    polyCore chk = ((chk &&& 0x1FFFFFF) <<< 5) ^^^ genSum ((chk >>> 25) &&& 0xFF) := by
  rw [polyCore, polymodStep_closed, Nat.xor_zero]

/-- The data value enters one polymod step purely by XOR. -/
theorem polymodStep_eq_core (chk v : Nat) : polymodStep chk v = polyCore chk ^^^ v := by
  rw [polymodStep_closed, polyCore_closed]
  ac_rfl

/-- Left shift distributes over XOR. -/
theorem shiftLeft_xor_distrib (x y n : Nat) : (x ^^^ y) <<< n = x <<< n ^^^ y <<< n := by
  apply Nat.eq_of_testBit_eq
  intro i
  simp [Nat.testBit_shiftLeft, Nat.testBit_xor, Bool.and_xor_distrib_left]

/-- Right shift distributes over XOR. -/
theorem shiftRight_xor_distrib (x y n : Nat) : (x ^^^ y) >>> n = x >>> n ^^^ y >>> n := by
  apply Nat.eq_of_testBit_eq
  intro i
  simp [Nat.testBit_shiftRight, Nat.testBit_xor]

/-- A conditional XOR term over the XOR of two bits splits bitwise. -/
theorem ite_bit_xor (xa xb G : Nat) (ha : xa ≤ 1) (hb : xb ≤ 1) :
    (if xa ^^^ xb = 1 then G else 0) =
      (if xa = 1 then G else 0) ^^^ (if xb = 1 then G else 0) := by
  interval_cases xa <;> interval_cases xb <;> simp

/-- The map `genSum` is GF(2)-linear. -/
theorem genSum_xor (a b : Nat) : genSum (a ^^^ b) = genSum a ^^^ genSum b := by
  have hbit : ∀ i, ((a ^^^ b) >>> i) &&& 1 = ((a >>> i) &&& 1) ^^^ ((b >>> i) &&& 1) := by
    intro i
    rw [shiftRight_xor_distrib, Nat.and_xor_distrib_right]
  rw [genSum, genSum, genSum, hbit 0, hbit 1, hbit 2, hbit 3, hbit 4,
    ite_bit_xor _ _ _ Nat.and_le_right Nat.and_le_right,
    ite_bit_xor _ _ _ Nat.and_le_right Nat.and_le_right,
    ite_bit_xor _ _ _ Nat.and_le_right Nat.and_le_right,
    ite_bit_xor _ _ _ Nat.and_le_right Nat.and_le_right,
    ite_bit_xor _ _ _ Nat.and_le_right Nat.and_le_right]
  ac_rfl

/-- The linear part of the polymod step is GF(2)-linear. -/
theorem polyCore_linear (a b : Nat) : polyCore (a ^^^ b) = polyCore a ^^^ polyCore b := by
  rw [polyCore_closed, polyCore_closed, polyCore_closed, Nat.and_xor_distrib_right,
    shiftLeft_xor_distrib, shiftRight_xor_distrib, Nat.and_xor_distrib_right, genSum_xor]
  ac_rfl

/-- The value `genSum 0` is zero. -/
theorem genSum_zero : genSum 0 = 0 := rfl

/-- On values below `2^25` the linear part is a plain shift. -/
theorem polyCore_small (d : Nat) (hd : d < 2 ^ 25) : polyCore d = d <<< 5 := by
  rw [polyCore_closed]
  have h1 : d &&& 0x1FFFFFF = d := by
    have h : (0x1FFFFFF : Nat) = 2 ^ 25 - 1 := by norm_num
    rw [h, Nat.and_pow_two_sub_one_eq_mod, Nat.mod_eq_of_lt hd]
  have h2 : d >>> 25 = 0 := by
    rw [Nat.shiftRight_eq_div_pow]
    exact Nat.div_eq_of_lt hd
  rw [h1, h2, Nat.zero_and, genSum_zero, Nat.xor_zero]

/-- A small XOR-difference on the state shifts left by 5 through one step. -/
theorem polymodStep_shift (c v d : Nat) (hd : d < 2 ^ 25) :
    polymodStep (c ^^^ d) v = polymodStep c v ^^^ d <<< 5 := by
  rw [polymodStep_eq_core, polymodStep_eq_core, polyCore_linear, polyCore_small d hd]
  ac_rfl

/-- A small XOR-difference on the state propagates through a fold of polymod
steps as a left shift by 5 per processed value. -/
theorem foldl_polymodStep_shift (ws : List Nat) :
    ∀ c d : Nat, d * 2 ^ (5 * ws.length) < 2 ^ 30 →
      ws.foldl polymodStep (c ^^^ d) = ws.foldl polymodStep c ^^^ d <<< (5 * ws.length) := by
  induction ws with
  | nil =>
    intro c d _
    simp
  | cons w ws ih =>
    intro c d hd
    rw [List.length_cons] at hd
    have harith : 5 * (ws.length + 1) = 5 + 5 * ws.length := by ring
    have hdsmall : d < 2 ^ 25 := by
      by_contra hcon
      push_neg at hcon
      have h1 : 2 ^ 25 * 2 ^ 5 ≤ d * 2 ^ (5 * (ws.length + 1)) := by
        apply Nat.mul_le_mul hcon
        apply Nat.pow_le_pow_right (by norm_num)
        omega
      rw [← pow_add] at h1
      norm_num at h1
      have h2 : d * 2 ^ (5 * (ws.length + 1)) < 2 ^ 30 := hd
      norm_num at h2
      omega
    rw [List.foldl_cons, List.foldl_cons, polymodStep_shift c w d hdsmall]
    have hd' : (d <<< 5) * 2 ^ (5 * ws.length) < 2 ^ 30 := by
      rw [Nat.shiftLeft_eq, mul_assoc, ← pow_add]
      rw [harith] at hd
      rw [add_comm] at hd ⊢
      exact hd
    rw [ih _ _ hd', ← Nat.shiftLeft_add, List.length_cons, harith]

/-- The map `genSum` stays below `2^30`. -/
theorem genSum_lt (b : Nat) : genSum b < 2 ^ 30 := by
  have h : ∀ (c : Prop) (inst : Decidable c) (G : Nat), G < 2 ^ 30 →
      (if c then G else 0) < 2 ^ 30 := by
    intro c inst G hG
    split
    · exact hG
    · positivity
  rw [genSum]
  exact Nat.xor_lt_two_pow (h _ _ _ (by norm_num))
    (Nat.xor_lt_two_pow (h _ _ _ (by norm_num))
      (Nat.xor_lt_two_pow (h _ _ _ (by norm_num))
        (Nat.xor_lt_two_pow (h _ _ _ (by norm_num)) (h _ _ _ (by norm_num)))))

/-- The linear part stays below `2^30`. -/
theorem polyCore_lt (c : Nat) : polyCore c < 2 ^ 30 := by
  rw [polyCore_closed]
  apply Nat.xor_lt_two_pow _ (genSum_lt _)
  rw [Nat.shiftLeft_eq]
  have h1 : c &&& 0x1FFFFFF < 2 ^ 25 := lt_of_le_of_lt Nat.and_le_right (by norm_num)
  have h2 : (2 : Nat) ^ 25 * 2 ^ 5 = 2 ^ 30 := by norm_num
  calc (c &&& 0x1FFFFFF) * 2 ^ 5 < 2 ^ 25 * 2 ^ 5 :=
        (Nat.mul_lt_mul_right (by norm_num)).mpr h1
    _ = 2 ^ 30 := h2

/-- The polymod accumulator stays below `2^30` on 5-bit inputs. -/
theorem foldl_polymodStep_lt (values : List Nat) :
    ∀ c : Nat, (∀ v ∈ values, v < 32) → c < 2 ^ 30 →
      values.foldl polymodStep c < 2 ^ 30 := by
  induction values with
  | nil => exact fun c _ hc => hc
  | cons v vs ih =>
    intro c hvals hc
    rw [List.foldl_cons]
    apply ih _ (fun w hw => hvals w (List.mem_cons_of_mem _ hw))
    rw [polymodStep_eq_core]
    exact Nat.xor_lt_two_pow (polyCore_lt c)
      (lt_trans (hvals v (List.mem_cons_self _ _)) (by norm_num))

/-- A 5-bit value shifted by at most 25 stays below `2^30`. -/
theorem small_mul_pow_lt (g k : Nat) (hg : g < 32) (hk : k ≤ 25) : g * 2 ^ k < 2 ^ 30 := by
  calc g * 2 ^ k < 32 * 2 ^ k := (Nat.mul_lt_mul_right (Nat.two_pow_pos k)).mpr hg
    _ = 2 ^ (k + 5) := by rw [pow_add]; ring
    _ ≤ 2 ^ 30 := Nat.pow_le_pow_right (by norm_num) (by omega)

/-- XOR with a value below the shifted block is plain addition. -/
theorem mul_pow_xor_eq_add (a v f : Nat) (hv : v < 2 ^ f) : (a * 2 ^ f) ^^^ v = a * 2 ^ f + v := by
  apply Nat.eq_of_testBit_eq
  intro j
  rw [Nat.testBit_xor, mul_comm a (2 ^ f), Nat.testBit_mul_pow_two_add a hv j,
    Nat.testBit_mul_pow_two]
  by_cases hj : j < f
  · have hnge : ¬ (j ≥ f) := by omega
    simp [hj, hnge]
  · have hge : j ≥ f := by omega
    have hvlt : v < 2 ^ j := lt_of_lt_of_le hv (Nat.pow_le_pow_right (by norm_num) hge)
    simp [hj, hge, Nat.testBit_lt_two_pow hvlt]

/-- Peeling the six checksum values off the tail of a polymod fold: each one
enters by XOR and is shifted left five bits per remaining value. -/
theorem foldl_polymodStep_six (c0 g0 g1 g2 g3 g4 g5 : Nat)
    (h0 : g0 < 32) (h1 : g1 < 32) (h2 : g2 < 32) (h3 : g3 < 32) (h4 : g4 < 32) (h5 : g5 < 32) :
    List.foldl polymodStep c0 [g0, g1, g2, g3, g4, g5] =
      List.foldl polymodStep c0 [0, 0, 0, 0, 0, 0] ^^^
        (g0 <<< 25 ^^^ (g1 <<< 20 ^^^ (g2 <<< 15 ^^^ (g3 <<< 10 ^^^ (g4 <<< 5 ^^^ g5))))) := by
  have hstep : ∀ c g : Nat, polymodStep c g = polymodStep c 0 ^^^ g := by
    intro c g
    rw [polymodStep_eq_core, polymodStep_eq_core, Nat.xor_zero]
  have hB : ∀ g : Nat, g < 32 → ∀ l : List Nat, l.length ≤ 5 →
      g * 2 ^ (5 * l.length) < 2 ^ 30 := by
    intro g hg l hl
    exact small_mul_pow_lt g (5 * l.length) hg (by omega)
  rw [List.foldl_cons, hstep c0 g0,
    foldl_polymodStep_shift [g1, g2, g3, g4, g5] (polymodStep c0 0) g0
      (hB g0 h0 [g1, g2, g3, g4, g5] (by simp)),
    List.foldl_cons, hstep _ g1,
    foldl_polymodStep_shift [g2, g3, g4, g5] _ g1 (hB g1 h1 [g2, g3, g4, g5] (by simp)),
    List.foldl_cons, hstep _ g2,
    foldl_polymodStep_shift [g3, g4, g5] _ g2 (hB g2 h2 [g3, g4, g5] (by simp)),
    List.foldl_cons, hstep _ g3,
    foldl_polymodStep_shift [g4, g5] _ g3 (hB g3 h3 [g4, g5] (by simp)),
    List.foldl_cons, hstep _ g4,
    foldl_polymodStep_shift [g5] _ g4 (hB g4 h4 [g5] (by simp)),
    List.foldl_cons, hstep _ g5, List.foldl_nil]
  simp only [List.length_cons, List.length_nil]
  norm_num
  generalize polymodStep (polymodStep (polymodStep (polymodStep (polymodStep
    (polymodStep c0 0) 0) 0) 0) 0) 0 = Z
  generalize g0 <<< 25 = a0
  generalize g1 <<< 20 = a1
  generalize g2 <<< 15 = a2
  generalize g3 <<< 10 = a3
  generalize g4 <<< 5 = a4
  ac_rfl

/-- Recomposing a 30-bit value from its six 5-bit groups (XOR of the
disjoint shifted groups). -/
theorem xor_shift_sum_eq (pm : Nat) (hpm : pm < 2 ^ 30) :
    ((pm >>> 25) &&& 31) <<< 25 ^^^ (((pm >>> 20) &&& 31) <<< 20 ^^^
      (((pm >>> 15) &&& 31) <<< 15 ^^^ (((pm >>> 10) &&& 31) <<< 10 ^^^
        (((pm >>> 5) &&& 31) <<< 5 ^^^ (pm &&& 31))))) = pm := by
  have hmask : ∀ x : Nat, x &&& 31 = x % 32 := by
    intro x
    have h : (31 : Nat) = 2 ^ 5 - 1 := by norm_num
    rw [h, Nat.and_pow_two_sub_one_eq_mod]
  simp only [hmask, Nat.shiftRight_eq_div_pow, Nat.shiftLeft_eq]
  rw [mul_pow_xor_eq_add (pm / 2 ^ 5 % 32) (pm % 32) 5 (by omega)]
  rw [mul_pow_xor_eq_add (pm / 2 ^ 10 % 32) _ 10 (by omega)]
  rw [mul_pow_xor_eq_add (pm / 2 ^ 15 % 32) _ 15 (by omega)]
  rw [mul_pow_xor_eq_add (pm / 2 ^ 20 % 32) _ 20 (by omega)]
  rw [mul_pow_xor_eq_add (pm / 2 ^ 25 % 32) _ 25 (by omega)]
  omega

/-- The six checksum values, written out. -/
theorem create_checksum_explicit (hrp : String) (data : List Nat) :
    bech32_create_checksum hrp data =
      [((bech32_polymod (bech32_hrp_expand hrp ++ data ++ [0, 0, 0, 0, 0, 0]) ^^^ 1) >>> 25) &&& 31,
       ((bech32_polymod (bech32_hrp_expand hrp ++ data ++ [0, 0, 0, 0, 0, 0]) ^^^ 1) >>> 20) &&& 31,
       ((bech32_polymod (bech32_hrp_expand hrp ++ data ++ [0, 0, 0, 0, 0, 0]) ^^^ 1) >>> 15) &&& 31,
       ((bech32_polymod (bech32_hrp_expand hrp ++ data ++ [0, 0, 0, 0, 0, 0]) ^^^ 1) >>> 10) &&& 31,
       ((bech32_polymod (bech32_hrp_expand hrp ++ data ++ [0, 0, 0, 0, 0, 0]) ^^^ 1) >>> 5) &&& 31,
       (bech32_polymod (bech32_hrp_expand hrp ++ data ++ [0, 0, 0, 0, 0, 0]) ^^^ 1) &&& 31] := by
  have hr : List.range 6 = [0, 1, 2, 3, 4, 5] := rfl
  simp only [bech32_create_checksum, hr, List.map_cons, List.map_nil]
  norm_num

/-- The checksum construction verifies: appending the six checksum values
to the expanded hrp and data drives the polymod to exactly 1. -/
theorem bech32_verify_checksum (hrp : String) (data : List Nat)
    (hhrp : ∀ v ∈ bech32_hrp_expand hrp, v < 32) (hdata : ∀ v ∈ data, v < 32) :
    bech32_polymod (bech32_hrp_expand hrp ++ (data ++ bech32_create_checksum hrp data)) = 1 := by
  have hb : ∀ x : Nat, x &&& 31 < 32 :=
    fun x => lt_of_le_of_lt Nat.and_le_right (by norm_num)
  have hassoc : bech32_hrp_expand hrp ++ (data ++ bech32_create_checksum hrp data) =
      (bech32_hrp_expand hrp ++ data) ++ bech32_create_checksum hrp data :=
    (List.append_assoc _ _ _).symm
  rw [hassoc, create_checksum_explicit hrp data, bech32_polymod, List.foldl_append,
    foldl_polymodStep_six _ _ _ _ _ _ _ (hb _) (hb _) (hb _) (hb _) (hb _) (hb _)]
  have hZ : List.foldl polymodStep (List.foldl polymodStep 1 (bech32_hrp_expand hrp ++ data))
      [0, 0, 0, 0, 0, 0] =
      bech32_polymod (bech32_hrp_expand hrp ++ data ++ [0, 0, 0, 0, 0, 0]) := by
    rw [bech32_polymod]
    simp only [List.foldl_append]
  have hzlt : bech32_polymod (bech32_hrp_expand hrp ++ data ++ [0, 0, 0, 0, 0, 0]) < 2 ^ 30 := by
    rw [bech32_polymod]
    apply foldl_polymodStep_lt _ _ _ (by norm_num)
    intro v hv
    rcases List.mem_append.mp hv with hv1 | hv2
    · rcases List.mem_append.mp hv1 with hv3 | hv4
      · exact hhrp v hv3
      · exact hdata v hv4
    · have hv0 : v = 0 := by simpa using hv2
      rw [hv0]
      norm_num
  have hpm30 : bech32_polymod (bech32_hrp_expand hrp ++ data ++ [0, 0, 0, 0, 0, 0]) ^^^ 1 < 2 ^ 30 :=
    Nat.xor_lt_two_pow hzlt (by norm_num)
  rw [hZ, xor_shift_sum_eq _ hpm30, ← Nat.xor_assoc, Nat.xor_self, Nat.zero_xor]

/-! ### C1, step 2: `convertbits` as big-endian regrouping. -/

/-- Folding the big-endian accumulator from an arbitrary start. -/
theorem beNum_from (w : Nat) (l : List Nat) :
    ∀ a : Nat, l.foldl (fun a v => a * 2 ^ w + v) a = a * 2 ^ (w * l.length) + beNum w l := by
  induction l with
  | nil =>
    intro a
    simp [beNum]
  | cons v rest ih =>
    intro a
    rw [List.foldl_cons, ih (a * 2 ^ w + v), List.length_cons]
    have hbc : beNum w (v :: rest) = v * 2 ^ (w * rest.length) + beNum w rest := by
      rw [beNum, List.foldl_cons]
      have h0 : (0 : Nat) * 2 ^ w + v = v := by ring
      rw [h0]
      exact ih v
    rw [hbc]
    have hp : w * (rest.length + 1) = w * rest.length + w := by ring
    rw [hp, pow_add]
    ring

/-- Head decomposition of `beNum`. -/
theorem beNum_cons (w v : Nat) (l : List Nat) :
    beNum w (v :: l) = v * 2 ^ (w * l.length) + beNum w l := by
  rw [beNum, List.foldl_cons]
  have h0 : (0 : Nat) * 2 ^ w + v = v := by ring
  rw [h0]
  exact beNum_from w l v

/-- Tail decomposition of `beNum`. -/
theorem beNum_snoc (w v : Nat) (l : List Nat) :
    beNum w (l ++ [v]) = beNum w l * 2 ^ w + v := by
  rw [beNum, List.foldl_append, List.foldl_cons, List.foldl_nil]
  rfl

/-- A `beNum` of `w`-bit groups is bounded by the total bit width. -/
theorem beNum_lt (w : Nat) (l : List Nat) (h : ∀ v ∈ l, v < 2 ^ w) :
    beNum w l < 2 ^ (w * l.length) := by
  induction l with
  | nil => simp [beNum]
  | cons v rest ih =>
    rw [beNum_cons, List.length_cons]
    have h1 : beNum w rest < 2 ^ (w * rest.length) :=
      ih (fun x hx => h x (List.mem_cons_of_mem _ hx))
    have h2 : v < 2 ^ w := h v (List.mem_cons_self _ _)
    calc v * 2 ^ (w * rest.length) + beNum w rest
        < v * 2 ^ (w * rest.length) + 2 ^ (w * rest.length) := by omega
      _ = (v + 1) * 2 ^ (w * rest.length) := by ring
      _ ≤ 2 ^ w * 2 ^ (w * rest.length) := Nat.mul_le_mul_right _ h2
      _ = 2 ^ (w * (rest.length + 1)) := by
          rw [← pow_add]
          congr 1
          ring

/-- The map `beNum` is injective on equal-length lists of `w`-bit groups. -/
theorem beNum_inj (w : Nat) : ∀ l1 l2 : List Nat, l1.length = l2.length →
    (∀ v ∈ l1, v < 2 ^ w) → (∀ v ∈ l2, v < 2 ^ w) → beNum w l1 = beNum w l2 → l1 = l2 := by
  intro l1
  induction l1 with
  | nil =>
    intro l2 hlen _ _ _
    exact (List.length_eq_zero.mp hlen.symm).symm
  | cons v rest ih =>
    intro l2 hlen hb1 hb2 heq
    cases l2 with
    | nil => simp at hlen
    | cons u rest2 =>
      have hlen2 : rest.length = rest2.length := by simpa using hlen
      rw [beNum_cons, beNum_cons, ← hlen2] at heq
      have hr1 : beNum w rest < 2 ^ (w * rest.length) :=
        beNum_lt _ _ (fun x hx => hb1 x (List.mem_cons_of_mem _ hx))
      have hr2 : beNum w rest2 < 2 ^ (w * rest.length) := by
        rw [hlen2]
        exact beNum_lt _ _ (fun x hx => hb2 x (List.mem_cons_of_mem _ hx))
      have hBpos : 0 < 2 ^ (w * rest.length) := Nat.two_pow_pos _
      have hdivL : (v * 2 ^ (w * rest.length) + beNum w rest) / 2 ^ (w * rest.length) = v := by
        rw [mul_comm v _, Nat.mul_add_div hBpos, Nat.div_eq_of_lt hr1]
        omega
      have hdivR : (u * 2 ^ (w * rest.length) + beNum w rest2) / 2 ^ (w * rest.length) = u := by
        rw [mul_comm u _, Nat.mul_add_div hBpos, Nat.div_eq_of_lt hr2]
        omega
      have hvu : v = u := by rw [← hdivL, ← hdivR, heq]
      rw [hvu] at heq
      have hrest : beNum w rest = beNum w rest2 := Nat.add_left_cancel heq
      rw [hvu, ih rest2 hlen2 (fun x hx => hb1 x (List.mem_cons_of_mem _ hx))
        (fun x hx => hb2 x (List.mem_cons_of_mem _ hx)) hrest]

/-- Invariant of the inner emit loop of `convertbits`: it moves whole `t`-bit
groups of the accumulator's pending bits into the output, preserving the
combined big-endian value. -/
theorem emitAll_spec (t maxv acc : Nat) (ht : 0 < t) (hmax : maxv = 2 ^ t - 1) :
    ∀ bits : Nat, ∀ ret : List Nat,
      (emitAll t maxv acc bits ret).1 < t ∧
      t * (emitAll t maxv acc bits ret).2.length + (emitAll t maxv acc bits ret).1
        = t * ret.length + bits ∧
      beNum t (emitAll t maxv acc bits ret).2 * 2 ^ (emitAll t maxv acc bits ret).1
          + acc % 2 ^ (emitAll t maxv acc bits ret).1
        = beNum t ret * 2 ^ bits + acc % 2 ^ bits ∧
      ∀ r ∈ (emitAll t maxv acc bits ret).2, r ∈ ret ∨ r < 2 ^ t := by
  intro bits
  induction bits using Nat.strong_induction_on with
  | _ bits ih =>
    intro ret
    rw [emitAll]
    split
    case isTrue hcond =>
      obtain ⟨ih1, ih2, ih3, ih4⟩ :=
        ih (bits - t) (by omega) (ret ++ [(acc >>> (bits - t)) &&& maxv])
      refine ⟨ih1, ?_, ?_, ?_⟩
      · rw [ih2, List.length_append, List.length_singleton]
        have hmul : t * (ret.length + 1) = t * ret.length + t := by ring
        rw [hmul]
        omega
      · rw [ih3, beNum_snoc]
        have hx : (acc >>> (bits - t)) &&& maxv = acc / 2 ^ (bits - t) % 2 ^ t := by
          rw [hmax, Nat.shiftRight_eq_div_pow, Nat.and_pow_two_sub_one_eq_mod]
        have hpow : (2 : Nat) ^ bits = 2 ^ (bits - t) * 2 ^ t := by
          rw [← pow_add]
          congr 1
          omega
        rw [hx, hpow, Nat.mod_mul]
        ring
      · intro r hr
        rcases ih4 r hr with hmem | hlt
        · rcases List.mem_append.mp hmem with hm1 | hm2
          · exact Or.inl hm1
          · right
            have hr2 : r = (acc >>> (bits - t)) &&& maxv := by simpa using hm2
            rw [hr2, hmax]
            exact lt_of_le_of_lt Nat.and_le_right (Nat.sub_lt (Nat.two_pow_pos t) one_pos)
        · exact Or.inr hlt
    case isFalse hcond =>
      have hbt : bits < t := by
        by_contra hc
        push_neg at hc
        exact hcond ⟨ht, hc⟩
      exact ⟨hbt, rfl, rfl, fun r hr => Or.inl hr⟩

/-- Invariant of the `convertbits` main loop: on in-range input it never
fails, leaves fewer than `t` pending bits, accounts for every input bit, and
preserves the big-endian value of the processed stream. -/
theorem convertbitsGo_spec (f t maxv : Nat) (ht : 0 < t) (hmax : maxv = 2 ^ t - 1) :
    ∀ (data : List Nat) (acc bits : Nat) (ret : List Nat),
      (∀ v ∈ data, v < 2 ^ f) → bits < t → (∀ r ∈ ret, r < 2 ^ t) →
      ∃ acc1 bits1 ret1,
        convertbitsGo f t maxv data acc bits ret = some (acc1, bits1, ret1) ∧
        bits1 < t ∧
        t * ret1.length + bits1 = t * ret.length + bits + f * data.length ∧
        beNum t ret1 * 2 ^ bits1 + acc1 % 2 ^ bits1
          = (beNum t ret * 2 ^ bits + acc % 2 ^ bits) * 2 ^ (f * data.length) + beNum f data ∧
        ∀ r ∈ ret1, r < 2 ^ t := by
  intro data
  induction data with
  | nil =>
    intro acc bits ret _ hbits hret
    refine ⟨acc, bits, ret, rfl, hbits, by simp, ?_, hret⟩
    simp [beNum]
  | cons v rest ih =>
    intro acc bits ret hdata hbits hret
    have hv : v < 2 ^ f := hdata v (List.mem_cons_self _ _)
    have hvz : v >>> f = 0 := by
      rw [Nat.shiftRight_eq_div_pow]
      exact Nat.div_eq_of_lt hv
    have hacc1 : (acc <<< f) ||| v = acc * 2 ^ f + v := by
      rw [Nat.shiftLeft_eq, mul_comm acc (2 ^ f)]
      exact (Nat.mul_add_lt_is_or hv acc).symm
    obtain ⟨e1, e2, e3, e4⟩ := emitAll_spec t maxv ((acc <<< f) ||| v) ht hmax (bits + f) ret
    obtain ⟨acc1, bits1, ret1, hgo, hb1, hlen1, hval1, helem1⟩ :=
      ih ((acc <<< f) ||| v) (emitAll t maxv ((acc <<< f) ||| v) (bits + f) ret).1
        (emitAll t maxv ((acc <<< f) ||| v) (bits + f) ret).2
        (fun x hx => hdata x (List.mem_cons_of_mem _ hx)) e1
        (fun r hr => (e4 r hr).elim (fun hm => hret r hm) id)
    refine ⟨acc1, bits1, ret1, ?_, hb1, ?_, ?_, helem1⟩
    · simp only [convertbitsGo]
      rw [if_neg (by simp [hvz])]
      exact hgo
    · rw [hlen1, e2, List.length_cons]
      have hm : f * (rest.length + 1) = f * rest.length + f := by ring
      rw [hm]
      omega
    · rw [hval1, e3]
      have hmod : ((acc <<< f) ||| v) % 2 ^ (bits + f) = (acc % 2 ^ bits) * 2 ^ f + v := by
        rw [hacc1]
        have hp : (2 : Nat) ^ (bits + f) = 2 ^ f * 2 ^ bits := by
          rw [← pow_add]
          congr 1
          omega
        rw [hp, Nat.mod_mul]
        have h1 : (acc * 2 ^ f + v) % 2 ^ f = v := by
          rw [mul_comm acc (2 ^ f), Nat.mul_add_mod, Nat.mod_eq_of_lt hv]
        have h2 : (acc * 2 ^ f + v) / 2 ^ f = acc := by
          rw [mul_comm acc _, Nat.mul_add_div (Nat.two_pow_pos f), Nat.div_eq_of_lt hv]
          omega
        rw [h1, h2]
        ring
      rw [hmod, beNum_cons, List.length_cons]
      have hp1 : (2 : Nat) ^ (bits + f) = 2 ^ bits * 2 ^ f := by rw [pow_add]
      have hp2 : f * (rest.length + 1) = f * rest.length + f := by ring
      rw [hp1, hp2, pow_add]
      ring

/-- Applying `convertbits(_, 8, 5, True)` on twenty bytes: thirty-two 5-bit groups
with the same big-endian value (160 bits divide evenly, so no padding). -/
theorem convertbits_8_5 (data : List Nat) (hlen : data.length = 20)
    (hdata : ∀ v ∈ data, v < 256) :
    ∃ out, convertbits data 8 5 true = some out ∧ out.length = 32 ∧
      (∀ r ∈ out, r < 32) ∧ beNum 5 out = beNum 8 data := by
  obtain ⟨acc1, bits1, ret1, hgo, hb1, hlen1, hval1, helem1⟩ :=
    convertbitsGo_spec 8 5 ((1 <<< 5) - 1) (by norm_num) rfl data 0 0 []
      (by intro x hx; have := hdata x hx; norm_num; omega) (by norm_num) (by simp)
  rw [hlen] at hlen1
  simp only [beNum, List.foldl_nil, List.length_nil] at hlen1 hval1
  norm_num at hlen1 hval1
  have hb0 : bits1 = 0 := by omega
  have hlen32 : ret1.length = 32 := by omega
  rw [hb0] at hval1
  norm_num [Nat.mod_one] at hval1
  refine ⟨ret1, ?_, hlen32, ?_, ?_⟩
  · simp only [convertbits]
    rw [hgo]
    simp [hb0]
  · intro r hr
    have := helem1 r hr
    norm_num at this ⊢
    omega
  · simp only [beNum]
    norm_num
    exact hval1

/-- Applying `convertbits(_, 5, 8, False)` on thirty-two 5-bit groups: twenty bytes
with the same big-endian value, accepted by the strict no-padding check. -/
theorem convertbits_5_8 (data5 : List Nat) (hlen : data5.length = 32)
    (hdata : ∀ v ∈ data5, v < 32) :
    ∃ out, convertbits data5 5 8 false = some out ∧ out.length = 20 ∧
      (∀ r ∈ out, r < 256) ∧ beNum 8 out = beNum 5 data5 := by
  obtain ⟨acc1, bits1, ret1, hgo, hb1, hlen1, hval1, helem1⟩ :=
    convertbitsGo_spec 5 8 ((1 <<< 8) - 1) (by norm_num) rfl data5 0 0 []
      (by intro x hx; have := hdata x hx; norm_num; omega) (by norm_num) (by simp)
  rw [hlen] at hlen1
  simp only [beNum, List.foldl_nil, List.length_nil] at hlen1 hval1
  norm_num at hlen1 hval1
  have hb0 : bits1 = 0 := by omega
  have hlen20 : ret1.length = 20 := by omega
  rw [hb0] at hval1
  norm_num [Nat.mod_one] at hval1
  refine ⟨ret1, ?_, hlen20, ?_, ?_⟩
  · simp only [convertbits]
    rw [hgo]
    have hcond : ¬ (5 ≤ bits1 ∨ (acc1 <<< (8 - bits1)) &&& ((1 <<< 8) - 1) ≠ 0) := by
      rw [hb0]
      push_neg
      refine ⟨by norm_num, ?_⟩
      rw [Nat.shiftLeft_eq]
      have h255 : ((1 <<< 8) - 1 : Nat) = 2 ^ 8 - 1 := rfl
      rw [h255, Nat.and_pow_two_sub_one_eq_mod]
      norm_num
    simp only [Bool.false_eq_true, if_false]
    rw [if_neg hcond]
  · intro r hr
    have := helem1 r hr
    norm_num at this ⊢
    omega
  · simp only [beNum]
    norm_num
    exact hval1

/-- The 8→5 then 5→8 regrouping of twenty bytes is the identity. -/
theorem convertbits_roundtrip (b : List Nat) (hlen : b.length = 20)
    (hb : ∀ x ∈ b, x < 256) :
    ∃ d5, convertbits b 8 5 true = some d5 ∧ d5.length = 32 ∧ (∀ r ∈ d5, r < 32) ∧
      convertbits d5 5 8 false = some b := by
  obtain ⟨d5, h1, h2, h3, h4⟩ := convertbits_8_5 b hlen hb
  obtain ⟨out, g1, g2, g3, g4⟩ := convertbits_5_8 d5 h2 h3
  have hout : out = b := by
    apply beNum_inj 8 out b (by rw [g2, hlen])
    · intro x hx
      have := g3 x hx
      norm_num
      omega
    · intro x hx
      have := hb x hx
      norm_num
      omega
    · rw [g4, h4]
  exact ⟨d5, h1, h2, h3, hout ▸ g1⟩

/-! ### C1, step 3: the string layer of encode/decode. -/

/-- Every bech32 alphabet character differs from the separator. -/
theorem notSep_charsetChar : ∀ v : Nat, v < 32 → notSep (charsetChar v) = true := by decide

/-- The separator fails `notSep`. -/
theorem notSep_one : notSep '1' = false := by decide

/-- The map `charsetIndex` inverts `charsetChar` on 5-bit values. -/
theorem charsetIndex_charsetChar : ∀ v : Nat, v < 32 → charsetIndex (charsetChar v) = some v := by
  decide

/-- The map `decodeChars` inverts the character mapping of the encoder. -/
theorem decodeChars_map (vs : List Nat) (h : ∀ v ∈ vs, v < 32) :
    decodeChars (vs.map charsetChar) = some vs := by
  induction vs with
  | nil => rfl
  | cons v rest ih =>
    rw [List.map_cons, decodeChars, charsetIndex_charsetChar v (h v (List.mem_cons_self _ _)),
      ih (fun x hx => h x (List.mem_cons_of_mem _ hx))]

/-- Splitting a list at a marked element with `takeWhile`/`dropWhile`. -/
theorem takeWhile_dropWhile_middle (p : α → Bool) (l1 l2 : List α) (x : α)
    (h1 : ∀ c ∈ l1, p c = true) (hx : p x = false) :
    (l1 ++ x :: l2).takeWhile p = l1 ∧ (l1 ++ x :: l2).dropWhile p = x :: l2 := by
  induction l1 with
  | nil => simp [List.takeWhile_cons, List.dropWhile_cons, hx]
  | cons c l1 ih =>
    have hc : p c = true := h1 c (List.mem_cons_self _ _)
    obtain ⟨ih1, ih2⟩ := ih (fun d hd => h1 d (List.mem_cons_of_mem _ hd))
    constructor
    · rw [List.cons_append, List.takeWhile_cons, hc]
      simp [ih1]
    · rw [List.cons_append, List.dropWhile_cons, hc]
      simp [ih2]

/-- The character list produced by `bech32_encode`. -/
theorem bech32_encode_data (hrp : String) (data : List Nat) :
    (bech32_encode hrp data).data =
      hrp.data ++ '1' :: (data ++ bech32_create_checksum hrp data).map charsetChar := by
  simp [bech32_encode, String.data_append]

/-- The checksum always has six values. -/
theorem create_checksum_length (hrp : String) (data : List Nat) :
    (bech32_create_checksum hrp data).length = 6 := by
  simp [bech32_create_checksum]

/-- Every checksum value is a 5-bit value. -/
theorem create_checksum_lt (hrp : String) (data : List Nat) :
    ∀ r ∈ bech32_create_checksum hrp data, r < 32 := by
  intro r hr
  simp only [bech32_create_checksum, List.mem_map] at hr
  obtain ⟨i, _, hi⟩ := hr
  rw [← hi]
  exact lt_of_le_of_lt Nat.and_le_right (by norm_num)

/-- The expanded `shidovalcons` prefix only contains 5-bit values. -/
theorem hrp_expand_valcons_lt : ∀ v ∈ bech32_hrp_expand VALCONS_PREFIX, v < 32 := by decide

/-- Decoding an encoded valcons payload recovers the human-readable part and
the 5-bit data, after checksum verification. -/
theorem bech32_decode_encode (d5 : List Nat) (hd5len : d5.length = 32)
    (hd5lt : ∀ r ∈ d5, r < 32) :
    bech32_decode (bech32_encode VALCONS_PREFIX d5) = some ( VALCONS_PREFIX, d5) := by
  have hcs6 := create_checksum_length VALCONS_PREFIX d5
  have hcslt := create_checksum_lt VALCONS_PREFIX d5
  have hcomblt : ∀ r ∈ d5 ++ bech32_create_checksum VALCONS_PREFIX d5, r < 32 := by
    intro r hr
    rcases List.mem_append.mp hr with h | h
    · exact hd5lt r h
    · exact hcslt r h
  have hDne : ∀ c ∈ ((d5 ++ bech32_create_checksum VALCONS_PREFIX d5).map charsetChar).reverse,
      notSep c = true := by
    intro c hc
    rw [List.mem_reverse] at hc
    obtain ⟨v, hv, hveq⟩ := List.mem_map.mp hc
    rw [← hveq]
    exact notSep_charsetChar v (hcomblt v hv)
  obtain ⟨htake, hdrop⟩ := takeWhile_dropWhile_middle notSep
    (((d5 ++ bech32_create_checksum VALCONS_PREFIX d5).map charsetChar).reverse)
    VALCONS_PREFIX.data.reverse '1' hDne notSep_one
  have hlen38 : (d5 ++ bech32_create_checksum VALCONS_PREFIX d5).length = 38 := by
    rw [List.length_append, hd5len, hcs6]
  have h6 : 6 ≤ (d5 ++ bech32_create_checksum VALCONS_PREFIX d5).length := by
    rw [hlen38]
    norm_num
  have hpoly := bech32_verify_checksum VALCONS_PREFIX d5 hrp_expand_valcons_lt hd5lt
  simp only [bech32_decode, bech32_encode_data, List.reverse_append, List.reverse_cons,
    List.append_assoc, List.singleton_append]
  rw [htake, hdrop]
  simp only [List.reverse_reverse]
  rw [decodeChars_map _ hcomblt]
  have heta : String.mk VALCONS_PREFIX.data = VALCONS_PREFIX := rfl
  simp only [heta]
  rw [if_pos h6, if_pos hpoly, hlen38]
  norm_num
  exact List.take_left' hd5len

/-- The full encode/decode round trip on twenty raw bytes. -/
theorem valcons_roundtrip (b : List Nat) (hlen : b.length = 20) (hb : ∀ x ∈ b, x < 256) :
    ∃ s, bytes20_to_valcons b = some s ∧ valcons_decode s = some b := by
  obtain ⟨d5, hd5, hd5len, hd5lt, hback⟩ := convertbits_roundtrip b hlen hb
  refine ⟨bech32_encode VALCONS_PREFIX d5, ?_, ?_⟩
  · simp only [bytes20_to_valcons]
    rw [hd5]
  · simp only [valcons_decode]
    rw [bech32_decode_encode d5 hd5len hd5lt]
    simp [hback]

/-- C1: encoding a 20-byte value to a bech32 valcons address is
deterministic (equal inputs give equal output strings), and the resulting
string decodes — with checksum verification — back to the same 20 bytes. -/
theorem C1_encode_decode_roundtrip (b b' : List Nat) (hlen : b.length = 20)
    (hb : ∀ x ∈ b, x < 256) (heq : b = b') :
    bytes20_to_valcons b = bytes20_to_valcons b' ∧
    ∃ s, bytes20_to_valcons b = some s ∧ valcons_decode s = some b :=
  ⟨by rw [heq], valcons_roundtrip b hlen hb⟩

/-- Closed witness for C1 at the all-zero 20-byte input. -/
theorem C1_encode_decode_roundtrip_witness :
    bytes20_to_valcons (List.replicate 20 0) = bytes20_to_valcons (List.replicate 20 0) ∧
    ∃ s, bytes20_to_valcons (List.replicate 20 0) = some s ∧
      valcons_decode s = some (List.replicate 20 0) :=
  C1_encode_decode_roundtrip (List.replicate 20 0) (List.replicate 20 0) (by decide) (by decide)
    rfl
